import Mathlib

/-!
Shallow embedding of the Baserow field dependency graph engine
(`src/backend/src/baserow/contrib/database/fields/dependencies/depedency_rebuilder.py`)
together with the pieces of the data model it relies on. Fields and dependency
edges are records over `Nat` ids; the database table of `FieldDependency` rows
is a Lean list; Django querysets become list filters and maps; exceptions
become `Except`.
-/

namespace Baserow

/-- A database field, as this engine sees it. Modelled from the spec:
the `Field` / `LinkRowField` Django models are not under `src/`; the spec
(§3) describes a field as id, name (unique per table), owning table,
a link-row type tag with a target table, and a trashed flag. For a field
that is not link-row the `link_row_table` value is meaningless and is never
read by the engine. -/
structure Field where
  id : Nat
  name : String
  table : Nat
  isLinkRow : Bool
  link_row_table : Nat
  trashed : Bool
  deriving DecidableEq, Repr

/-- A `FieldDependency` edge row. Modelled from the spec: the Django model
itself is not under `src/`; the spec (§3, §6) gives its persisted layout as
`{dependant_id, dependency_id_or_null, via_id_or_null,
broken_reference_field_name_or_null}` plus a numeric row id. `dependency`
and `via` reference fields by id; `none` for `dependency` means the edge is
broken. -/
structure FieldDependency where
  id : Nat
  dependant : Nat
  dependency : Option Nat
  via : Option Nat
  broken_reference_field_name : Option String
  deriving DecidableEq, Repr

/-- The semantic identity key of an edge. -/
abbrev DepKey := Nat × Option Nat × Option Nat × Option String

/-- Modelled from the spec: `FieldDependency.__str__` (models file not under
`src/`), used by the rebuilder to compare two edges for functional equality.
Per §6 it is the canonical key `dependant_id:dependency_id:via_id` /
`dependant_id:via_id:broken_reference_field_name` and per §9 it is to be
treated as a derived composite key with those equality semantics, so it is
embedded as the tuple of the four columns (the row id takes no part). -/
def dep_str (d : FieldDependency) : DepKey :=
  (d.dependant, d.dependency, d.via, d.broken_reference_field_name)

/-- The whole graph store: the live fields, the persisted edge rows and the
next fresh row id handed out by a bulk insert. -/
structure GraphState where
  fields : List Field
  edges : List FieldDependency
  nextId : Nat
  deriving DecidableEq, Repr

/-- Modelled from the spec: `FieldCache.lookup_by_name` (field_cache.py is
not under `src/`). Per §4.1 it resolves a name to the live, non-trashed
field with that name in the given table, returning not-found as `none`.
The memoisation is invisible in a pure embedding. -/
def lookup_by_name (fields : List Field) (table : Nat) (name : String) : Option Field :=
  fields.find? (fun f => decide (f.table = table) && decide (f.name = name) && !f.trashed)

/-- Resolve a field id in the store (a Django foreign-key join). -/
def findField (fields : List Field) (fid : Nat) : Option Field :=
  fields.find? (fun f => decide (f.id = fid))

/-- Modelled from the spec: the successor step of the Circular Reference
Checker (§4.2, circular_reference_checker.py is not under `src/`): the
resolved (non-broken) edges form a directed graph from dependant to
dependency, plus an implicit dependant→via edge wherever `via` is set. -/
def successors (edges : List FieldDependency) (fid : Nat) : List Nat :=
  edges.foldr
    (fun e acc =>
      if e.dependant = fid ∧ e.dependency.isSome then
        e.dependency.toList ++ e.via.toList ++ acc
      else acc)
    []

/-- Fuel-bounded reachability over `successors`: `reaches edges fuel a b`
holds when a path of at most `fuel` hops leads from `a` to `b`. -/
def reaches (edges : List FieldDependency) : Nat → Nat → Nat → Bool
  | 0, a, b => a == b
  | fuel + 1, a, b => a == b || (successors edges a).any (fun c => reaches edges fuel c b)

/-- Modelled from the spec: `will_cause_circular_dep` (§4.2,
circular_reference_checker.py is not under `src/`). Adding the edge
`source → target` creates a cycle iff `target = source` or `source` is
already reachable from `target`. A simple path uses each edge's dependant
at most once, so `edges.length + 1` fuel is enough for completeness. -/
def will_cause_circular_dep (edges : List FieldDependency) (source target : Nat) : Bool :=
  source == target || reaches edges (edges.length + 1) target source

/-- The edge after `field.dependants.update(...)` and (for a link-row field)
`field.vias.update(...)` in `break_dependencies_for_field` have run over it:
an edge depending on `f` is broken keeping `f`'s name, and an edge routed
via `f` is additionally stripped of its via. -/
def breakEdge (f : Field) (e : FieldDependency) : FieldDependency :=
  let e1 :=
    if e.dependency = some f.id then
      { e with dependency := none, broken_reference_field_name := some f.name }
    else e
  if f.isLinkRow = true ∧ e1.via = some f.id then
    { e1 with dependency := none, broken_reference_field_name := some f.name, via := none }
  else e1

/-- Source `break_dependencies_for_field(field)`: deletes every edge whose
dependant is `field`, then breaks the edges that depend on it and (when it
is a link-row field) the edges routed via it. The reverse accessors
`field.dependants` / `field.vias` are modelled from the spec (§9) as the
reverse-index queries `dependency = f.id` / `via = f.id` over the edge
store. -/
def break_dependencies_for_field (f : Field) (edges : List FieldDependency) :
    List FieldDependency :=
  (edges.filter (fun e => !decide (e.dependant = f.id))).map (breakEdge f)

/-- First branch of the repair queryset filter:
`Q(dependant__table=field.table, broken_reference_field_name=field.name)`. -/
def dependant_matches (fields : List Field) (f : Field) (e : FieldDependency) : Bool :=
  (match findField fields e.dependant with
   | some d => decide (d.table = f.table)
   | none => false)
  && decide (e.broken_reference_field_name = some f.name)

/-- Second branch of the repair queryset filter:
`Q(via__link_row_table=field.table, broken_reference_field_name=field.name)`.
The join traverses the `via` foreign key, which by schema points at a
link-row field; an edge with a null or dangling `via` never matches. -/
def via_matches (fields : List Field) (f : Field) (e : FieldDependency) : Bool :=
  (match e.via with
   | some vid =>
     match findField fields vid with
     | some v => v.isLinkRow && decide (v.link_row_table = f.table)
     | none => false
   | none => false)
  && decide (e.broken_reference_field_name = some f.name)

/-- The whole repair queryset filter of `update_fields_with_broken_references`. -/
def matches_broken_reference (fields : List Field) (f : Field) (e : FieldDependency) : Bool :=
  dependant_matches fields f e || via_matches fields f e

/-- An edge is repaired when it matches the queryset and re-linking it to
`f` would not create a cycle; the cycle check runs against the edges as
they stood when the operation began. -/
def repairable (s : GraphState) (f : Field) (e : FieldDependency) : Bool :=
  matches_broken_reference s.fields f e
  && !(will_cause_circular_dep s.edges e.dependant f.id)

/-- Source lines `dep.dependency = field; dep.broken_reference_field_name = None`
followed by the bulk update of exactly those two columns. -/
def repairEdge (f : Field) (e : FieldDependency) : FieldDependency :=
  { e with dependency := some f.id, broken_reference_field_name := none }

/-- One edge's fate under `update_fields_with_broken_references`. -/
def repairStep (s : GraphState) (f : Field) (e : FieldDependency) : FieldDependency :=
  if repairable s f e then repairEdge f e else e

/-- Source `update_fields_with_broken_references(field)`: repairs every matching,
non-cycle-causing broken edge and reports whether any edge was repaired. -/
def update_fields_with_broken_references (f : Field) (s : GraphState) :
    Bool × GraphState :=
  (s.edges.any (repairable s f),
   { s with edges := s.edges.map (repairStep s f) })

/-- A dependency descriptor handed over by the field type's
`get_field_dependencies`: a bare name or a `(via_field_name, name)` tuple. -/
inductive Descriptor where
  | bare (name : String)
  | viaPair (via_field_name : String) (name : String)
  deriving DecidableEq, Repr

/-- The exceptions raised by the rebuilder. -/
inductive FieldDependencyException where
  | CircularFieldDependencyError
  | SelfReferenceFieldDependencyError
  deriving DecidableEq, Repr

/-- Source `_construct_dependency(field_instance, dependency, field_lookup_cache)`:
turns one descriptor into the unsaved edge rows (row id 0) it asks for,
raising `SelfReferenceFieldDependencyError` on a bare self-reference. -/
def construct_dependency (f : Field) (d : Descriptor) (fields : List Field) :
    Except FieldDependencyException (List FieldDependency) :=
  match d with
  | .bare name =>
    if f.name = name then
      .error .SelfReferenceFieldDependencyError
    else
      match lookup_by_name fields f.table name with
      | none => .ok [⟨0, f.id, none, none, some name⟩]
      | some dependency_field => .ok [⟨0, f.id, some dependency_field.id, none, none⟩]
  | .viaPair via_field_name name =>
    match lookup_by_name fields f.table via_field_name with
    | none => .ok [⟨0, f.id, none, none, some via_field_name⟩]
    | some via_field =>
      if via_field.isLinkRow = false then
        .ok [⟨0, f.id, some via_field.id, none, none⟩]
      else
        match lookup_by_name fields via_field.link_row_table name with
        | none => .ok [⟨0, f.id, none, some via_field.id, some name⟩]
        | some target_field =>
          if f.id ≠ via_field.id then
            .ok [⟨0, f.id, some via_field.id, none, none⟩,
                 ⟨0, f.id, some target_field.id, some via_field.id, none⟩]
          else
            .ok [⟨0, f.id, some target_field.id, some via_field.id, none⟩]

/-- The accumulation loop over the field type's descriptor list inside
`rebuild_field_dependencies`. -/
def construct_dependencies (f : Field) (fields : List Field) :
    List Descriptor → Except FieldDependencyException (List FieldDependency)
  | [] => .ok []
  | d :: rest =>
    match construct_dependency f d fields with
    | .error e => .error e
    | .ok deps =>
      match construct_dependencies f fields rest with
      | .error e => .error e
      | .ok more => .ok (deps ++ more)

/-- Source `field_instance.dependencies.all()`: the persisted outbound edges. -/
def currentDeps (s : GraphState) (fid : Nat) : List FieldDependency :=
  s.edges.filter (fun e => decide (e.dependant = fid))

/-- Key membership in a list of edges. -/
def hasKey (l : List FieldDependency) (k : DepKey) : Bool :=
  l.any (fun e => decide (dep_str e = k))

/-- One step of building a Python dict keyed by `dep_str`: a later edge with
an already-seen key overwrites the stored value in place, a fresh key is
appended. -/
def upsert (acc : List FieldDependency) (d : FieldDependency) : List FieldDependency :=
  if hasKey acc (dep_str d) then
    acc.map (fun e => if dep_str e = dep_str d then d else e)
  else
    acc ++ [d]

/-- The dict comprehension keyed by edge string, as an association list in key
insertion order. -/
def buildDict (l : List FieldDependency) : List FieldDependency :=
  l.foldl upsert []

/-- The `new_dependencies_to_create` list of `rebuild_field_dependencies`:
the deduplicated new edges whose key is absent from the current dict. -/
def new_dependencies_to_create (newDeps current : List FieldDependency) :
    List FieldDependency :=
  (buildDict newDeps).filter (fun d => !hasKey (buildDict current) (dep_str d))

/-- The `delete_ids` of `rebuild_field_dependencies`: ids of the current
dict entries whose key was not popped by any new edge. -/
def delete_ids (newDeps current : List FieldDependency) : List Nat :=
  ((buildDict current).filter (fun d => !hasKey (buildDict newDeps) (dep_str d))).map
    (fun d => d.id)

/-- Source `FieldDependency.objects.bulk_create`: hand consecutive fresh row ids to
the unsaved edges, returning the saved rows and the next fresh id. -/
def assignIds : List FieldDependency → Nat → List FieldDependency × Nat
  | [], n => ([], n)
  | d :: ds, n =>
    let p := assignIds ds (n + 1)
    ({ d with id := n } :: p.1, p.2)

/-- The cycle check run over one would-be-created edge:
`dep.dependency is not None and will_cause_circular_dep(field_instance, dep.dependency)`.
A broken edge (null dependency) is never checked. -/
def causes_cycle (edges : List FieldDependency) (fid : Nat) (d : FieldDependency) : Bool :=
  match d.dependency with
  | some t => will_cause_circular_dep edges fid t
  | none => false

/-- Source `rebuild_field_dependencies(field_instance, field_lookup_cache)`: builds
the desired edge list from the field type's descriptors (`descs` stands for
the external `get_field_dependencies` answer), diffs it by `dep_str` key
against the persisted outbound edges, cycle-checks every genuinely new
resolved edge against the pre-state, then bulk-creates the new edges and
deletes the stale ones. On an exception nothing is persisted. -/
def rebuild_field_dependencies (f : Field) (descs : List Descriptor) (s : GraphState) :
    Except FieldDependencyException GraphState :=
  match construct_dependencies f s.fields descs with
  | .error e => .error e
  | .ok new_dependencies =>
    let current := currentDeps s f.id
    let to_create := new_dependencies_to_create new_dependencies current
    if to_create.any (causes_cycle s.edges f.id) then
      .error .CircularFieldDependencyError
    else
      let p := assignIds to_create s.nextId
      let dels := delete_ids new_dependencies current
      .ok { s with
            edges := (s.edges ++ p.1).filter (fun e => !decide (e.id ∈ dels)),
            nextId := p.2 }

/-! ### Concrete fixtures mirroring the repository's test scenarios -/

/-- A plain text field `a` in table 1. -/
def fieldA : Field := ⟨1, "a", 1, false, 0, false⟩

/-- A formula field `b` in table 1 whose descriptor list is `[bare "a"]`. -/
def fieldB : Field := ⟨2, "b", 1, false, 0, false⟩

/-- Table 1 with fields `a`, `b` and no edges yet. -/
def state0 : GraphState := ⟨[fieldA, fieldB], [], 100⟩

/-- State `state0` after rebuilding `b`: one resolved edge b→a. -/
def state1 : GraphState := ⟨[fieldA, fieldB], [⟨100, 2, some 1, none, none⟩], 101⟩

/-- The primary field of table 1. -/
def primaryT1 : Field := ⟨1, "primary", 1, false, 0, false⟩

/-- The primary field of table 2. -/
def primaryT2 : Field := ⟨2, "primary", 2, false, 0, false⟩

/-- A link-row field `link` in table 1 pointing at table 2. -/
def linkField : Field := ⟨3, "link", 1, true, 2, false⟩

/-- The two tables of the link-row rebuild scenario, no edges yet. -/
def linkState : GraphState := ⟨[primaryT1, primaryT2, linkField], [], 100⟩

/-- The edge produced by rebuilding `linkField`: link→primaryT2 via itself. -/
def linkEdge : FieldDependency := ⟨100, 3, some 2, some 3, none⟩

/-- State `linkState` after rebuilding `linkField`. -/
def linkState' : GraphState := ⟨[primaryT1, primaryT2, linkField], [linkEdge], 101⟩

/-- Formula field `first`, which references `second`. -/
def firstField : Field := ⟨1, "first", 1, false, 0, false⟩

/-- Formula field `second`, which references `first`. -/
def secondField : Field := ⟨2, "second", 1, false, 0, false⟩

/-- The edge first→second created by rebuilding `first`. -/
def circEdge : FieldDependency := ⟨100, 1, some 2, none, none⟩

/-- The state in which rebuilding `second` must raise a circular error. -/
def circState : GraphState := ⟨[firstField, secondField], [circEdge], 101⟩

/-- A field `x` in table 1 holding a lookup through `linkL`. -/
def fieldX : Field := ⟨10, "x", 1, false, 0, false⟩

/-- The link-row field `l` in table 1 pointing at table 2. -/
def linkL : Field := ⟨11, "l", 1, true, 2, false⟩

/-- The looked-up field `y` in table 2. -/
def fieldY : Field := ⟨12, "y", 2, false, 0, false⟩

/-- The via edge x→y through `l`. -/
def edgeXY : FieldDependency := ⟨100, 10, some 12, some 11, none⟩

/-- The companion direct edge x→l. -/
def edgeXL : FieldDependency := ⟨101, 10, some 11, none, none⟩

/-- The lookup scenario before anything is deleted. -/
def breakState : GraphState := ⟨[fieldX, linkL, fieldY], [edgeXY, edgeXL], 200⟩

/-- A freshly created replacement field named `y` in table 2. -/
def fieldY2 : Field := ⟨13, "y", 2, false, 0, false⟩

/-- The lookup scenario after `y` was deleted and a new `y` was created. -/
def repairState : GraphState :=
  ⟨fieldY2 :: breakState.fields,
   break_dependencies_for_field fieldY breakState.edges, 200⟩

/-! ### Helper lemmas about keys, dicts and id assignment -/

theorem dep_str_set_id (d : FieldDependency) (n : Nat) :
    dep_str { d with id := n } = dep_str d := rfl

theorem hasKey_iff (l : List FieldDependency) (k : DepKey) :
    hasKey l k = true ↔ ∃ e ∈ l, dep_str e = k := by
  simp [hasKey, List.any_eq_true]

theorem hasKey_eq_false_iff (l : List FieldDependency) (k : DepKey) :
    hasKey l k = false ↔ ∀ e ∈ l, dep_str e ≠ k := by
  rw [← Bool.not_eq_true, hasKey_iff]
  push_neg
  rfl

theorem hasKey_upsert (acc : List FieldDependency) (d : FieldDependency) (k : DepKey) :
    hasKey (upsert acc d) k = (hasKey acc k || decide (dep_str d = k)) := by
  rw [Bool.eq_iff_iff]
  unfold upsert
  split
  case isTrue h =>
    rw [hasKey_iff, Bool.or_eq_true, hasKey_iff]
    constructor
    · rintro ⟨e, he, hk⟩
      rcases List.mem_map.mp he with ⟨x, hx, hxe⟩
      by_cases hc : dep_str x = dep_str d
      · rw [if_pos hc] at hxe
        subst hxe
        right
        exact decide_eq_true hk
      · rw [if_neg hc] at hxe
        subst hxe
        left
        exact ⟨x, hx, hk⟩
    · rintro (⟨e, he, hk⟩ | hk)
      · by_cases hc : dep_str e = dep_str d
        · rcases (hasKey_iff acc (dep_str d)).mp h with ⟨x, hx, hxk⟩
          refine ⟨d, List.mem_map.mpr ⟨x, hx, ?_⟩, ?_⟩
          · rw [if_pos hxk]
          · rw [← hc]
            exact hk
        · exact ⟨e, List.mem_map.mpr ⟨e, he, by rw [if_neg hc]⟩, hk⟩
      · rcases (hasKey_iff acc (dep_str d)).mp h with ⟨x, hx, hxk⟩
        exact ⟨d, List.mem_map.mpr ⟨x, hx, by rw [if_pos hxk]⟩, of_decide_eq_true hk⟩
  case isFalse h =>
    rw [hasKey_iff, Bool.or_eq_true, hasKey_iff]
    constructor
    · rintro ⟨e, he, hk⟩
      rcases List.mem_append.mp he with he | he
      · exact Or.inl ⟨e, he, hk⟩
      · rw [List.mem_singleton] at he
        subst he
        exact Or.inr (decide_eq_true hk)
    · rintro (⟨e, he, hk⟩ | hk)
      · exact ⟨e, List.mem_append.mpr (Or.inl he), hk⟩
      · exact ⟨d, List.mem_append.mpr (Or.inr (List.mem_singleton.mpr rfl)),
          of_decide_eq_true hk⟩

theorem mem_upsert (acc : List FieldDependency) (d x : FieldDependency)
    (h : x ∈ upsert acc d) : x ∈ acc ∨ x = d := by
  unfold upsert at h
  split at h
  · rcases List.mem_map.mp h with ⟨e, he, hex⟩
    by_cases hc : dep_str e = dep_str d
    · rw [if_pos hc] at hex
      exact Or.inr hex.symm
    · rw [if_neg hc] at hex
      exact Or.inl (hex ▸ he)
  · rcases List.mem_append.mp h with h | h
    · exact Or.inl h
    · exact Or.inr (List.mem_singleton.mp h)

theorem map_dep_str_upsert (acc : List FieldDependency) (d : FieldDependency) :
    (upsert acc d).map dep_str =
      if hasKey acc (dep_str d) then acc.map dep_str
      else acc.map dep_str ++ [dep_str d] := by
  unfold upsert
  split
  · rw [List.map_map]
    apply List.map_congr_left
    intro e _
    simp only [Function.comp]
    by_cases hc : dep_str e = dep_str d
    · rw [if_pos hc, hc]
    · rw [if_neg hc]
  · rw [List.map_append]
    rfl

theorem keyNodup_upsert (acc : List FieldDependency) (d : FieldDependency)
    (h : (acc.map dep_str).Nodup) : ((upsert acc d).map dep_str).Nodup := by
  rw [map_dep_str_upsert]
  split
  · exact h
  case isFalse hk =>
    apply List.Nodup.append h (List.nodup_singleton _)
    intro k hkm hks
    rw [List.mem_singleton] at hks
    subst hks
    rcases List.mem_map.mp hkm with ⟨e, he, hek⟩
    exact (hasKey_eq_false_iff acc (dep_str d)).mp (Bool.eq_false_iff.mpr hk) e he hek

/-- Key membership over the dict-building fold. -/
theorem hasKey_foldl_upsert (l : List FieldDependency) (acc : List FieldDependency)
    (k : DepKey) :
    hasKey (l.foldl upsert acc) k = (hasKey acc k || hasKey l k) := by
  induction l generalizing acc with
  | nil => simp [hasKey]
  | cons d rest ih =>
    rw [List.foldl_cons, ih, hasKey_upsert, Bool.or_assoc]
    congr 1

theorem hasKey_buildDict (l : List FieldDependency) (k : DepKey) :
    hasKey (buildDict l) k = hasKey l k := by
  unfold buildDict
  rw [hasKey_foldl_upsert]
  simp [hasKey]

theorem mem_foldl_upsert (l acc : List FieldDependency) (x : FieldDependency)
    (h : x ∈ l.foldl upsert acc) : x ∈ acc ∨ x ∈ l := by
  induction l generalizing acc with
  | nil => exact Or.inl h
  | cons d rest ih =>
    rw [List.foldl_cons] at h
    rcases ih (upsert acc d) h with h' | h'
    · rcases mem_upsert acc d x h' with h'' | h''
      · exact Or.inl h''
      · exact Or.inr (h'' ▸ List.mem_cons_self d rest)
    · exact Or.inr (List.mem_cons_of_mem d h')

theorem mem_buildDict (l : List FieldDependency) (x : FieldDependency)
    (h : x ∈ buildDict l) : x ∈ l := by
  rcases mem_foldl_upsert l [] x h with h' | h'
  · exact absurd h' (List.not_mem_nil x)
  · exact h'

theorem keyNodup_foldl_upsert (l acc : List FieldDependency)
    (h : (acc.map dep_str).Nodup) : ((l.foldl upsert acc).map dep_str).Nodup := by
  induction l generalizing acc with
  | nil => exact h
  | cons d rest ih => exact ih (upsert acc d) (keyNodup_upsert acc d h)

theorem keyNodup_buildDict (l : List FieldDependency) :
    ((buildDict l).map dep_str).Nodup :=
  keyNodup_foldl_upsert l [] List.nodup_nil

theorem foldl_upsert_of_keyNodup (l acc : List FieldDependency)
    (h : ((acc ++ l).map dep_str).Nodup) : l.foldl upsert acc = acc ++ l := by
  induction l generalizing acc with
  | nil => simp
  | cons d rest ih =>
    rw [List.foldl_cons]
    have hnk : hasKey acc (dep_str d) = false := by
      rw [hasKey_eq_false_iff]
      intro e he hek
      rw [List.map_append, List.nodup_append] at h
      exact h.2.2 (hek ▸ List.mem_map_of_mem dep_str he)
        (List.mem_map_of_mem dep_str (List.mem_cons_self d rest))
    rw [upsert, hnk]
    simp only [Bool.false_eq_true, if_false]
    have hres := ih (acc ++ [d]) (by simpa using h)
    rw [hres]
    simp

theorem buildDict_of_keyNodup (l : List FieldDependency)
    (h : (l.map dep_str).Nodup) : buildDict l = l := by
  unfold buildDict
  rw [foldl_upsert_of_keyNodup l [] (by simpa using h)]
  rfl

theorem assignIds_map_dep_str (l : List FieldDependency) (n : Nat) :
    ((assignIds l n).1).map dep_str = l.map dep_str := by
  induction l generalizing n with
  | nil => rfl
  | cons d rest ih =>
    show dep_str { d with id := n } :: ((assignIds rest (n + 1)).1).map dep_str = _
    rw [dep_str_set_id, ih]
    rfl

theorem mem_assignIds (l : List FieldDependency) (n : Nat) (e : FieldDependency)
    (h : e ∈ (assignIds l n).1) :
    (∃ x ∈ l, dep_str e = dep_str x) ∧ n ≤ e.id := by
  induction l generalizing n with
  | nil => exact absurd h (List.not_mem_nil e)
  | cons d rest ih =>
    rcases List.mem_cons.mp h with h' | h'
    · subst h'
      exact ⟨⟨d, List.mem_cons_self d rest, rfl⟩, Nat.le_refl n⟩
    · rcases ih (n + 1) h' with ⟨⟨x, hx, hk⟩, hn⟩
      exact ⟨⟨x, List.mem_cons_of_mem d hx, hk⟩, Nat.le_of_succ_le hn⟩

/-! ### Structural lemmas about construction and the rebuild diff -/

theorem construct_dependency_error_self (f : Field) (d : Descriptor)
    (fields : List Field) (e : FieldDependencyException)
    (h : construct_dependency f d fields = .error e) :
    e = .SelfReferenceFieldDependencyError := by
  cases d with
  | bare name =>
    simp only [construct_dependency] at h
    split at h
    · cases h
      rfl
    · split at h <;> simp at h
  | viaPair via_field_name name =>
    simp only [construct_dependency] at h
    split at h
    · simp at h
    · split at h
      · simp at h
      · split at h
        · simp at h
        · split at h <;> simp at h

theorem construct_dependencies_error_self (f : Field) (fields : List Field)
    (descs : List Descriptor) (e : FieldDependencyException)
    (h : construct_dependencies f fields descs = .error e) :
    e = .SelfReferenceFieldDependencyError := by
  induction descs with
  | nil => exact absurd h (by simp [construct_dependencies])
  | cons d rest ih =>
    unfold construct_dependencies at h
    split at h
    case h_1 e' he =>
      cases h
      exact construct_dependency_error_self f d fields e he
    case h_2 =>
      split at h
      · cases h
        exact ih (by assumption)
      · exact absurd h (by simp)

theorem construct_dependency_dependant (f : Field) (d : Descriptor)
    (fields : List Field) (l : List FieldDependency)
    (h : construct_dependency f d fields = .ok l) :
    ∀ x ∈ l, x.dependant = f.id := by
  cases d with
  | bare name =>
    simp only [construct_dependency] at h
    split at h
    · simp at h
    · split at h <;>
      · cases h
        intro x hx
        rw [List.mem_singleton] at hx
        subst hx
        rfl
  | viaPair via_field_name name =>
    simp only [construct_dependency] at h
    split at h
    · cases h
      intro x hx
      rw [List.mem_singleton] at hx
      subst hx
      rfl
    · split at h
      · cases h
        intro x hx
        rw [List.mem_singleton] at hx
        subst hx
        rfl
      · split at h
        · cases h
          intro x hx
          rw [List.mem_singleton] at hx
          subst hx
          rfl
        · split at h <;>
          · cases h
            intro x hx
            rcases List.mem_cons.mp hx with hx | hx
            · subst hx
              rfl
            · first
              | (rw [List.mem_singleton] at hx
                 subst hx
                 rfl)
              | exact absurd hx (List.not_mem_nil x)

theorem construct_dependencies_dependant (f : Field) (fields : List Field)
    (descs : List Descriptor) (l : List FieldDependency)
    (h : construct_dependencies f fields descs = .ok l) :
    ∀ x ∈ l, x.dependant = f.id := by
  induction descs generalizing l with
  | nil =>
    unfold construct_dependencies at h
    cases h
    intro x hx
    exact absurd hx (List.not_mem_nil x)
  | cons d rest ih =>
    unfold construct_dependencies at h
    split at h
    · exact absurd h (by simp)
    case h_2 deps hd =>
      split at h
      · exact absurd h (by simp)
      case h_2 more hm =>
        cases h
        intro x hx
        rcases List.mem_append.mp hx with hx | hx
        · exact construct_dependency_dependant f d fields deps hd x hx
        · exact ih more hm x hx

theorem construct_dependencies_of_mem_bare (f : Field) (fields : List Field)
    (descs : List Descriptor) (h : Descriptor.bare f.name ∈ descs) :
    construct_dependencies f fields descs =
      .error .SelfReferenceFieldDependencyError := by
  induction descs with
  | nil => exact absurd h (List.not_mem_nil _)
  | cons d rest ih =>
    rcases List.mem_cons.mp h with h' | h'
    · subst h'
      simp [construct_dependencies, construct_dependency]
    · cases hc : construct_dependency f d fields with
      | error e =>
        have he := construct_dependency_error_self f d fields e hc
        subst he
        simp only [construct_dependencies, hc]
      | ok deps =>
        simp only [construct_dependencies, hc, ih h']

theorem rebuild_ok_elim {f : Field} {descs : List Descriptor} {s s' : GraphState}
    (hok : rebuild_field_dependencies f descs s = .ok s') :
    ∃ newDeps,
      construct_dependencies f s.fields descs = .ok newDeps ∧
      (new_dependencies_to_create newDeps (currentDeps s f.id)).any
        (causes_cycle s.edges f.id) = false ∧
      s' = { s with
             edges := (s.edges ++
                 (assignIds (new_dependencies_to_create newDeps (currentDeps s f.id))
                   s.nextId).1).filter
               (fun e =>
                 !decide (e.id ∈ delete_ids newDeps (currentDeps s f.id))),
             nextId := (assignIds (new_dependencies_to_create newDeps
               (currentDeps s f.id)) s.nextId).2 } := by
  unfold rebuild_field_dependencies at hok
  split at hok
  · exact absurd hok (by simp)
  case h_2 newDeps hc =>
    refine ⟨newDeps, hc, ?_⟩
    dsimp only [] at hok
    split at hok
    · exact absurd hok (by simp)
    case isFalse hcyc =>
      cases hok
      exact ⟨Bool.eq_false_iff.mpr hcyc, rfl⟩

theorem rebuild_eq_ok_of (f : Field) (descs : List Descriptor) (s : GraphState)
    (newDeps : List FieldDependency)
    (hc : construct_dependencies f s.fields descs = .ok newDeps)
    (hto : new_dependencies_to_create newDeps (currentDeps s f.id) = [])
    (hdel : delete_ids newDeps (currentDeps s f.id) = []) :
    rebuild_field_dependencies f descs s = .ok s := by
  unfold rebuild_field_dependencies
  rw [hc]
  simp only [hto, hdel, assignIds, List.any_nil, Bool.false_eq_true, if_false,
    List.append_nil, List.not_mem_nil, decide_False, Bool.not_false, List.filter_true]

theorem dep_str_dependant {e x : FieldDependency} (h : dep_str e = dep_str x) :
    e.dependant = x.dependant := congrArg Prod.fst h

theorem currentDeps_sublist (s : GraphState) (fid : Nat) :
    (currentDeps s fid).Sublist s.edges := List.filter_sublist s.edges

theorem mem_currentDeps {s : GraphState} {fid : Nat} {e : FieldDependency} :
    e ∈ currentDeps s fid ↔ e ∈ s.edges ∧ e.dependant = fid := by
  unfold currentDeps
  rw [List.mem_filter]
  simp

/-- Under the row-id and key uniqueness invariants, an outbound edge's id is
in the delete list exactly when no desired edge shares its key. -/
theorem mem_delete_ids_iff {s : GraphState} {f : Field}
    (newDeps : List FieldDependency)
    (hids : (s.edges.map FieldDependency.id).Nodup)
    (hkeys : ((currentDeps s f.id).map dep_str).Nodup)
    {e : FieldDependency} (he : e ∈ currentDeps s f.id) :
    e.id ∈ delete_ids newDeps (currentDeps s f.id) ↔
      hasKey newDeps (dep_str e) = false := by
  have hbd : buildDict (currentDeps s f.id) = currentDeps s f.id :=
    buildDict_of_keyNodup _ hkeys
  have hidc : ((currentDeps s f.id).map FieldDependency.id).Nodup :=
    hids.sublist ((currentDeps_sublist s f.id).map FieldDependency.id)
  unfold delete_ids
  rw [hbd]
  constructor
  · intro h
    rcases List.mem_map.mp h with ⟨c, hcf, hce⟩
    rcases List.mem_filter.mp hcf with ⟨hcm, hck⟩
    have hceq : c = e := List.inj_on_of_nodup_map hidc hcm he hce
    subst hceq
    rw [Bool.not_eq_true'] at hck
    rw [← hasKey_buildDict]
    exact hck
  · intro h
    apply List.mem_map.mpr
    refine ⟨e, List.mem_filter.mpr ⟨he, ?_⟩, rfl⟩
    rw [Bool.not_eq_true', hasKey_buildDict]
    exact h

/-- The shape of a successful rebuild: the field's new outbound edge set is
the kept current edges (those whose key some desired edge shares) followed
by the freshly created edges; fields are untouched and the id counter
advances by the number of creations. -/
theorem rebuild_ok_decompose {f : Field} {descs : List Descriptor}
    {s s' : GraphState} {newDeps : List FieldDependency}
    (hids : (s.edges.map FieldDependency.id).Nodup)
    (hlt : ∀ e ∈ s.edges, e.id < s.nextId)
    (hkeys : ((currentDeps s f.id).map dep_str).Nodup)
    (hc : construct_dependencies f s.fields descs = .ok newDeps)
    (hok : rebuild_field_dependencies f descs s = .ok s') :
    currentDeps s' f.id =
      (currentDeps s f.id).filter (fun e => hasKey newDeps (dep_str e)) ++
        (assignIds (new_dependencies_to_create newDeps (currentDeps s f.id))
          s.nextId).1 ∧
    s'.fields = s.fields ∧
    s'.nextId = (assignIds (new_dependencies_to_create newDeps
      (currentDeps s f.id)) s.nextId).2 := by
  obtain ⟨nd, hc', hcyc, hs'⟩ := rebuild_ok_elim hok
  rw [hc] at hc'
  injection hc' with hnd
  subst hnd
  subst hs'
  refine ⟨?_, rfl, rfl⟩
  show ((s.edges ++ (assignIds (new_dependencies_to_create newDeps
      (currentDeps s f.id)) s.nextId).1).filter
      (fun e => !decide (e.id ∈ delete_ids newDeps (currentDeps s f.id)))).filter
      (fun e => decide (e.dependant = f.id)) = _
  rw [List.filter_filter, List.filter_append]
  congr 1
  · have hstep : s.edges.filter
        (fun e => decide (e.dependant = f.id) &&
          !decide (e.id ∈ delete_ids newDeps (currentDeps s f.id))) =
        (currentDeps s f.id).filter
          (fun e => !decide (e.id ∈ delete_ids newDeps (currentDeps s f.id))) := by
      have hcomm : (fun (e : FieldDependency) => decide (e.dependant = f.id) &&
          !decide (e.id ∈ delete_ids newDeps (currentDeps s f.id))) =
          (fun e => (!decide (e.id ∈ delete_ids newDeps (currentDeps s f.id))) &&
            decide (e.dependant = f.id)) := by
        funext e
        rw [Bool.and_comm]
      rw [hcomm, ← List.filter_filter]
      rfl
    rw [hstep]
    apply List.filter_congr
    intro e he
    cases hhk : hasKey newDeps (dep_str e) with
    | false =>
      have hin : e.id ∈ delete_ids newDeps (currentDeps s f.id) :=
        (mem_delete_ids_iff newDeps hids hkeys he).mpr hhk
      rw [decide_eq_true hin]
      rfl
    | true =>
      have hnin : ¬ e.id ∈ delete_ids newDeps (currentDeps s f.id) := by
        intro hin
        rw [(mem_delete_ids_iff newDeps hids hkeys he).mp hin] at hhk
        exact Bool.false_ne_true hhk
      rw [decide_eq_false hnin]
      rfl
  · apply List.filter_eq_self.mpr
    intro e he
    rcases mem_assignIds _ _ _ he with ⟨⟨x, hx, hkx⟩, hge⟩
    have hxnew : x ∈ newDeps :=
      mem_buildDict _ _ (List.mem_filter.mp hx).1
    have hdep : e.dependant = f.id :=
      (dep_str_dependant hkx).trans
        (construct_dependencies_dependant f s.fields descs newDeps hc x hxnew)
    have hnin : ¬ e.id ∈ delete_ids newDeps (currentDeps s f.id) := by
      intro hin
      unfold delete_ids at hin
      rcases List.mem_map.mp hin with ⟨c, hcf, hce⟩
      have hcm : c ∈ currentDeps s f.id :=
        mem_buildDict _ _ (List.mem_filter.mp hcf).1
      have hcs : c ∈ s.edges := (mem_currentDeps.mp hcm).1
      have := hlt c hcs
      omega
    rw [decide_eq_true hdep, decide_eq_false hnin]
    rfl

/-! ### Helper lemmas about breaking and repairing -/

theorem breakEdge_id (f : Field) (e : FieldDependency) :
    (breakEdge f e).id = e.id := by
  unfold breakEdge
  dsimp only []
  split <;> split <;> rfl

theorem breakEdge_dependant (f : Field) (e : FieldDependency) :
    (breakEdge f e).dependant = e.dependant := by
  unfold breakEdge
  dsimp only []
  split <;> split <;> rfl

theorem breakEdge_dependency_of (f : Field) (e : FieldDependency)
    (h : e.dependency = some f.id) :
    (breakEdge f e).dependency = none ∧
    (breakEdge f e).broken_reference_field_name = some f.name := by
  unfold breakEdge
  dsimp only []
  rw [if_pos h]
  split
  · exact ⟨rfl, rfl⟩
  · exact ⟨rfl, rfl⟩

theorem breakEdge_via_of (f : Field) (e : FieldDependency)
    (hl : f.isLinkRow = true) (h : e.via = some f.id) :
    (breakEdge f e).via = none ∧ (breakEdge f e).dependency = none ∧
    (breakEdge f e).broken_reference_field_name = some f.name := by
  unfold breakEdge
  dsimp only []
  by_cases hd : e.dependency = some f.id
  · rw [if_pos hd, if_pos ⟨hl, h⟩]
    exact ⟨rfl, rfl, rfl⟩
  · rw [if_neg hd, if_pos ⟨hl, h⟩]
    exact ⟨rfl, rfl, rfl⟩

theorem breakEdge_frame (f : Field) (e : FieldDependency)
    (hd : ¬ e.dependency = some f.id) (hv : ¬ e.via = some f.id) :
    breakEdge f e = e := by
  unfold breakEdge
  dsimp only []
  rw [if_neg hd, if_neg (fun hc => hv hc.2)]

theorem mem_break_dependencies {f : Field} {edges : List FieldDependency}
    {e : FieldDependency} (he : e ∈ edges) (hdept : ¬ e.dependant = f.id) :
    breakEdge f e ∈ break_dependencies_for_field f edges := by
  unfold break_dependencies_for_field
  apply List.mem_map_of_mem
  apply List.mem_filter.mpr
  refine ⟨he, ?_⟩
  rw [decide_eq_false hdept]
  rfl

theorem findField_cons_ne (g : Field) (fields : List Field) (fid : Nat)
    (h : ¬ g.id = fid) : findField (g :: fields) fid = findField fields fid := by
  unfold findField
  rw [List.find?_cons]
  rw [decide_eq_false h]

theorem matches_broken_name {fields : List Field} {f : Field}
    {e : FieldDependency} (h : matches_broken_reference fields f e = true) :
    e.broken_reference_field_name = some f.name := by
  unfold matches_broken_reference at h
  rcases Bool.or_eq_true _ _ |>.mp h with h' | h'
  · exact of_decide_eq_true (Bool.and_eq_true _ _ |>.mp h').2
  · exact of_decide_eq_true (Bool.and_eq_true _ _ |>.mp h').2

/-! ### Claim theorems -/

/-- C2: rebuilding a field's dependencies a second time, with no change to
the field's descriptor list or the graph in between, performs zero edge
insertions and zero edge deletions — the second rebuild returns the state
unchanged, so every surviving edge keeps its row id and the set of
canonical edge keys is identical. The hypotheses are the data model's
standing invariants: distinct row ids below the id counter and no two
outbound edges of the field with the same semantic identity key. -/
theorem C2_rebuild_idempotent (f : Field) (descs : List Descriptor)
    (s s' : GraphState)
    (hids : (s.edges.map FieldDependency.id).Nodup)
    (hlt : ∀ e ∈ s.edges, e.id < s.nextId)
    (hkeys : ((currentDeps s f.id).map dep_str).Nodup)
    (hok : rebuild_field_dependencies f descs s = .ok s') :
    rebuild_field_dependencies f descs s' = .ok s' := by
  obtain ⟨newDeps, hc, hcyc, hs'⟩ := rebuild_ok_elim hok
  obtain ⟨hcur, hfields, hnext⟩ := rebuild_ok_decompose hids hlt hkeys hc hok
  have hc2 : construct_dependencies f s'.fields descs = .ok newDeps := by
    rw [hfields]
    exact hc
  have hkeyIn : ∀ d ∈ buildDict newDeps,
      hasKey (currentDeps s' f.id) (dep_str d) = true := by
    intro d hd
    have hdn : d ∈ newDeps := mem_buildDict _ _ hd
    rw [hcur]
    cases hhk : hasKey (currentDeps s f.id) (dep_str d) with
    | true =>
      rcases (hasKey_iff _ _).mp hhk with ⟨c, hcm, hck⟩
      apply (hasKey_iff _ _).mpr
      refine ⟨c, List.mem_append.mpr (Or.inl (List.mem_filter.mpr ⟨hcm, ?_⟩)), hck⟩
      rw [hck]
      exact (hasKey_iff _ _).mpr ⟨d, hdn, rfl⟩
    | false =>
      have hdc : d ∈ new_dependencies_to_create newDeps (currentDeps s f.id) := by
        apply List.mem_filter.mpr
        refine ⟨hd, ?_⟩
        rw [Bool.not_eq_true', hasKey_buildDict]
        exact hhk
      have hmem : dep_str d ∈
          ((assignIds (new_dependencies_to_create newDeps (currentDeps s f.id))
            s.nextId).1).map dep_str := by
        rw [assignIds_map_dep_str]
        exact List.mem_map_of_mem dep_str hdc
      rcases List.mem_map.mp hmem with ⟨e, hem, hek⟩
      exact (hasKey_iff _ _).mpr ⟨e, List.mem_append.mpr (Or.inr hem), hek⟩
  have hto : new_dependencies_to_create newDeps (currentDeps s' f.id) = [] := by
    unfold new_dependencies_to_create
    apply List.filter_eq_nil_iff.mpr
    intro d hd hcon
    rw [Bool.not_eq_true', hasKey_buildDict] at hcon
    rw [hkeyIn d hd] at hcon
    simp at hcon
  have hdelf : (buildDict (currentDeps s' f.id)).filter
      (fun d => !hasKey (buildDict newDeps) (dep_str d)) = [] := by
    apply List.filter_eq_nil_iff.mpr
    intro d hd hcon
    rw [Bool.not_eq_true', hasKey_buildDict] at hcon
    have hd' : d ∈ currentDeps s' f.id := mem_buildDict _ _ hd
    rw [hcur] at hd'
    rcases List.mem_append.mp hd' with hdk | hdc
    · have hkt := (List.mem_filter.mp hdk).2
      rw [hcon] at hkt
      simp at hkt
    · rcases mem_assignIds _ _ _ hdc with ⟨⟨x, hx, hkx⟩, -⟩
      have hxn : x ∈ newDeps := mem_buildDict _ _ (List.mem_filter.mp hx).1
      have hkt : hasKey newDeps (dep_str d) = true := by
        rw [hkx]
        exact (hasKey_iff _ _).mpr ⟨x, hxn, rfl⟩
      rw [hcon] at hkt
      simp at hkt
  have hdel : delete_ids newDeps (currentDeps s' f.id) = [] := by
    unfold delete_ids
    rw [hdelf]
    rfl
  exact rebuild_eq_ok_of f descs s' newDeps hc2 hto hdel

/-- Closed witness for C2 on the repository's scenario 1: `b` references
`a`; after the first rebuild the second one returns the state unchanged. -/
theorem C2_rebuild_idempotent_witness :
    (state0.edges.map FieldDependency.id).Nodup ∧
    (∀ e ∈ state0.edges, e.id < state0.nextId) ∧
    ((currentDeps state0 fieldB.id).map dep_str).Nodup ∧
    rebuild_field_dependencies fieldB [.bare "a"] state0 = .ok state1 ∧
    rebuild_field_dependencies fieldB [.bare "a"] state1 = .ok state1 :=
  ⟨by decide, by decide, by decide, by rfl,
   C2_rebuild_idempotent fieldB [.bare "a"] state0 state1
     (by decide) (by decide) (by decide) (by rfl)⟩

/-- C9: after every successful rebuild of a field's dependencies — under
the data model's standing invariants on the pre-state — the field's
outbound edge set contains no two edges with the same semantic identity
key, even when the descriptor list yields duplicate descriptors (the dict
keyed by `dep_str` deduplicates them). -/
theorem C9_rebuild_no_duplicate_keys (f : Field) (descs : List Descriptor)
    (s s' : GraphState)
    (hids : (s.edges.map FieldDependency.id).Nodup)
    (hlt : ∀ e ∈ s.edges, e.id < s.nextId)
    (hkeys : ((currentDeps s f.id).map dep_str).Nodup)
    (hok : rebuild_field_dependencies f descs s = .ok s') :
    ((currentDeps s' f.id).map dep_str).Nodup := by
  obtain ⟨newDeps, hc, hcyc, hs'⟩ := rebuild_ok_elim hok
  obtain ⟨hcur, -, -⟩ := rebuild_ok_decompose hids hlt hkeys hc hok
  rw [hcur, List.map_append]
  apply List.Nodup.append
  · exact hkeys.sublist ((List.filter_sublist _).map dep_str)
  · rw [assignIds_map_dep_str]
    exact (keyNodup_buildDict newDeps).sublist ((List.filter_sublist _).map dep_str)
  · intro k hk1 hk2
    rcases List.mem_map.mp hk1 with ⟨e, he, hek⟩
    rcases List.mem_filter.mp he with ⟨hec, hehk⟩
    rw [assignIds_map_dep_str] at hk2
    rcases List.mem_map.mp hk2 with ⟨x, hx, hxk⟩
    have hxf := (List.mem_filter.mp hx).2
    rw [Bool.not_eq_true', hasKey_buildDict] at hxf
    have hkt : hasKey (currentDeps s f.id) (dep_str x) = true := by
      apply (hasKey_iff _ _).mpr
      refine ⟨e, hec, ?_⟩
      rw [hek, ← hxk]
    rw [hxf] at hkt
    simp at hkt

/-- Closed witness for C9: rebuilding the link-row field with its
descriptor duplicated still yields a single edge, and the outbound key set
is duplicate-free. -/
theorem C9_rebuild_no_duplicate_keys_witness :
    (linkState.edges.map FieldDependency.id).Nodup ∧
    (∀ e ∈ linkState.edges, e.id < linkState.nextId) ∧
    ((currentDeps linkState linkField.id).map dep_str).Nodup ∧
    rebuild_field_dependencies linkField
      [.viaPair "link" "primary", .viaPair "link" "primary"] linkState =
      .ok linkState' ∧
    ((currentDeps linkState' linkField.id).map dep_str).Nodup :=
  ⟨by decide, by decide, by decide, by rfl,
   C9_rebuild_no_duplicate_keys linkField
     [.viaPair "link" "primary", .viaPair "link" "primary"] linkState linkState'
     (by decide) (by decide) (by decide) (by rfl)⟩

/-- C1: a rebuild raises `CircularFieldDependencyError` exactly when
construction succeeded and some genuinely new edge (absent from the current
edges by semantic identity) is resolved (`dependency = some t`) and closes a
cycle. In particular broken edges (null dependency) never trigger the
check, and on the error nothing is persisted — the rebuild returns no
state. -/
theorem C1_rebuild_circular_iff (f : Field) (descs : List Descriptor)
    (s : GraphState) :
    rebuild_field_dependencies f descs s =
      .error .CircularFieldDependencyError ↔
      ∃ newDeps, construct_dependencies f s.fields descs = .ok newDeps ∧
        ∃ d ∈ new_dependencies_to_create newDeps (currentDeps s f.id),
          ∃ t, d.dependency = some t ∧
            will_cause_circular_dep s.edges f.id t = true := by
  unfold rebuild_field_dependencies
  cases hc : construct_dependencies f s.fields descs with
  | error e =>
    have he := construct_dependencies_error_self f s.fields descs e hc
    subst he
    constructor
    · intro h
      simp at h
    · rintro ⟨nd, hnd, -⟩
      simp at hnd
  | ok newDeps =>
    dsimp only []
    split
    case isTrue hcyc =>
      constructor
      · intro _
        refine ⟨newDeps, rfl, ?_⟩
        rcases List.any_eq_true.mp hcyc with ⟨d, hd, hcd⟩
        refine ⟨d, hd, ?_⟩
        unfold causes_cycle at hcd
        cases hdt : d.dependency with
        | none =>
          rw [hdt] at hcd
          simp at hcd
        | some t =>
          rw [hdt] at hcd
          exact ⟨t, rfl, hcd⟩
      · intro _
        rfl
    case isFalse hcyc =>
      constructor
      · intro h
        simp at h
      · rintro ⟨nd, hnd, d, hd, t, hdt, hwc⟩
        injection hnd with hnd'
        subst hnd'
        exfalso
        apply hcyc
        apply List.any_eq_true.mpr
        refine ⟨d, hd, ?_⟩
        unfold causes_cycle
        rw [hdt]
        exact hwc

/-- Closed witness exercising C1 on scenario 2: with first→second already
persisted, rebuilding `second` against `[bare "first"]` raises the circular
error. -/
theorem C1_rebuild_circular_iff_witness :
    rebuild_field_dependencies secondField [.bare "first"] circState =
      .error .CircularFieldDependencyError :=
  (C1_rebuild_circular_iff secondField [.bare "first"] circState).mpr
    ⟨[⟨0, 2, some 1, none, none⟩], by rfl,
     ⟨0, 2, some 1, none, none⟩, by decide, 1, rfl, by decide⟩

/-- C6: if the descriptor list bare-names the field itself, the rebuild
raises `SelfReferenceFieldDependencyError` during construction — before the
diff, the cycle check or any persistence — so the edge set is unchanged
(no state is returned). -/
theorem C6_rebuild_self_reference (f : Field) (descs : List Descriptor)
    (s : GraphState) (h : Descriptor.bare f.name ∈ descs) :
    rebuild_field_dependencies f descs s =
      .error .SelfReferenceFieldDependencyError := by
  unfold rebuild_field_dependencies
  rw [construct_dependencies_of_mem_bare f s.fields descs h]

/-- Closed witness for C6: a formula field bare-naming itself. -/
theorem C6_rebuild_self_reference_witness :
    Descriptor.bare firstField.name ∈ [Descriptor.bare "first"] ∧
    rebuild_field_dependencies firstField [Descriptor.bare "first"] circState =
      .error .SelfReferenceFieldDependencyError :=
  ⟨by decide,
   C6_rebuild_self_reference firstField [Descriptor.bare "first"] circState
     (by decide)⟩

/-- C4: `break_dependencies_for_field(F)` deletes every edge whose
dependant is F; every surviving edge keeps its row id and dependant; an
edge whose dependency is F is converted to broken carrying F's name; an
edge whose via is F is additionally stripped of its via (the hypothesis —
the data model's invariant that a `via` always references a link-row
field — makes the link-row-only via update apply); an edge touching F in
no column is left completely unchanged. No table is consulted anywhere. -/
theorem C4_break_dependencies_spec (f : Field) (edges : List FieldDependency)
    (hvia : ∀ e ∈ edges, e.via = some f.id → f.isLinkRow = true) :
    (∀ e' ∈ break_dependencies_for_field f edges, ¬ e'.dependant = f.id) ∧
    (∀ e ∈ edges, ¬ e.dependant = f.id →
      breakEdge f e ∈ break_dependencies_for_field f edges) ∧
    (∀ e ∈ edges,
      (breakEdge f e).id = e.id ∧ (breakEdge f e).dependant = e.dependant ∧
      (e.dependency = some f.id →
        (breakEdge f e).dependency = none ∧
        (breakEdge f e).broken_reference_field_name = some f.name) ∧
      (e.via = some f.id →
        (breakEdge f e).via = none ∧ (breakEdge f e).dependency = none ∧
        (breakEdge f e).broken_reference_field_name = some f.name) ∧
      (¬ e.dependency = some f.id → ¬ e.via = some f.id →
        breakEdge f e = e)) ∧
    (∀ e' ∈ break_dependencies_for_field f edges,
      ∃ e ∈ edges, ¬ e.dependant = f.id ∧ e' = breakEdge f e) := by
  refine ⟨?_, ?_, ?_, ?_⟩
  · intro e' he'
    rcases List.mem_map.mp he' with ⟨e, he, heq⟩
    rcases List.mem_filter.mp he with ⟨-, hp⟩
    rw [Bool.not_eq_true'] at hp
    have hne : ¬ e.dependant = f.id := of_decide_eq_false hp
    rw [← heq, breakEdge_dependant]
    exact hne
  · intro e he hne
    exact mem_break_dependencies he hne
  · intro e he
    refine ⟨breakEdge_id f e, breakEdge_dependant f e, ?_, ?_, ?_⟩
    · exact breakEdge_dependency_of f e
    · intro hv
      exact breakEdge_via_of f e (hvia e he hv) hv
    · exact breakEdge_frame f e
  · intro e' he'
    rcases List.mem_map.mp he' with ⟨e, he, heq⟩
    rcases List.mem_filter.mp he with ⟨hem, hp⟩
    rw [Bool.not_eq_true'] at hp
    exact ⟨e, hem, of_decide_eq_false hp, heq.symm⟩

/-- Closed witness for C4 on the lookup scenario: breaking the link-row
field `l` leaves the dependant-filtered, broken-and-stripped edges. -/
theorem C4_break_dependencies_spec_witness :
    (∀ e ∈ breakState.edges, e.via = some linkL.id → linkL.isLinkRow = true) ∧
    ((∀ e' ∈ break_dependencies_for_field linkL breakState.edges,
      ¬ e'.dependant = linkL.id) ∧
    (∀ e ∈ breakState.edges, ¬ e.dependant = linkL.id →
      breakEdge linkL e ∈ break_dependencies_for_field linkL breakState.edges) ∧
    (∀ e ∈ breakState.edges,
      (breakEdge linkL e).id = e.id ∧
      (breakEdge linkL e).dependant = e.dependant ∧
      (e.dependency = some linkL.id →
        (breakEdge linkL e).dependency = none ∧
        (breakEdge linkL e).broken_reference_field_name = some linkL.name) ∧
      (e.via = some linkL.id →
        (breakEdge linkL e).via = none ∧
        (breakEdge linkL e).dependency = none ∧
        (breakEdge linkL e).broken_reference_field_name = some linkL.name) ∧
      (¬ e.dependency = some linkL.id → ¬ e.via = some linkL.id →
        breakEdge linkL e = e)) ∧
    (∀ e' ∈ break_dependencies_for_field linkL breakState.edges,
      ∃ e ∈ breakState.edges, ¬ e.dependant = linkL.id ∧
        e' = breakEdge linkL e)) :=
  ⟨by decide, C4_break_dependencies_spec linkL breakState.edges (by decide)⟩

/-- C8: a via-pair descriptor whose via name does not resolve in the
dependant's table yields exactly one broken edge named after the via with a
null via; one whose via resolves to a link-row field whose linked table
does not contain the target name yields exactly one broken edge named
after the target with the resolved via attached. -/
theorem C8_construct_via_pair_broken (f : Field)
    (via_field_name name : String) (fields : List Field) :
    (lookup_by_name fields f.table via_field_name = none →
      construct_dependency f (.viaPair via_field_name name) fields =
        .ok [⟨0, f.id, none, none, some via_field_name⟩]) ∧
    (∀ v, lookup_by_name fields f.table via_field_name = some v →
      v.isLinkRow = true →
      lookup_by_name fields v.link_row_table name = none →
      construct_dependency f (.viaPair via_field_name name) fields =
        .ok [⟨0, f.id, none, some v.id, some name⟩]) := by
  constructor
  · intro h
    simp only [construct_dependency, h]
  · intro v hv hlink htarget
    simp only [construct_dependency, hv, htarget, hlink]
    simp

/-- Closed witness for C8: an unknown via name, and the known link `l`
with an unknown far-side target name. -/
theorem C8_construct_via_pair_broken_witness :
    lookup_by_name breakState.fields fieldX.table "nolink" = none ∧
    construct_dependency fieldX (.viaPair "nolink" "y") breakState.fields =
      .ok [⟨0, 10, none, none, some "nolink"⟩] ∧
    lookup_by_name breakState.fields fieldX.table "l" = some linkL ∧
    linkL.isLinkRow = true ∧
    lookup_by_name breakState.fields linkL.link_row_table "z" = none ∧
    construct_dependency fieldX (.viaPair "l" "z") breakState.fields =
      .ok [⟨0, 10, none, some 11, some "z"⟩] :=
  ⟨by decide,
   (C8_construct_via_pair_broken fieldX "nolink" "y" breakState.fields).1
     (by decide),
   by decide, by decide, by decide,
   (C8_construct_via_pair_broken fieldX "l" "z" breakState.fields).2 linkL
     (by decide) (by decide) (by decide)⟩

/-- C5: `update_fields_with_broken_references(field)` is name-exact (an
edge can only match when its broken name equals the field's name), repairs
exactly the matching edges whose re-link passes the cycle check (setting
the dependency and clearing the broken name, touching nothing else),
silently leaves every cycle-causing or non-matching edge as it is (the
operation is total — no exception), and returns true iff at least one edge
was repaired. -/
theorem C5_update_broken_references_spec (f : Field) (s : GraphState) :
    ((update_fields_with_broken_references f s).1 = true ↔
      ∃ e ∈ s.edges, matches_broken_reference s.fields f e = true ∧
        will_cause_circular_dep s.edges e.dependant f.id = false) ∧
    ((update_fields_with_broken_references f s).2.edges =
      s.edges.map (repairStep s f)) ∧
    (∀ e, matches_broken_reference s.fields f e = true →
      e.broken_reference_field_name = some f.name) ∧
    (∀ e, matches_broken_reference s.fields f e = true →
      will_cause_circular_dep s.edges e.dependant f.id = false →
      repairStep s f e =
        { e with dependency := some f.id,
                 broken_reference_field_name := none }) ∧
    (∀ e, matches_broken_reference s.fields f e = false →
      repairStep s f e = e) ∧
    (∀ e, will_cause_circular_dep s.edges e.dependant f.id = true →
      repairStep s f e = e) := by
  refine ⟨?_, rfl, fun e => matches_broken_name, ?_, ?_, ?_⟩
  · show s.edges.any (repairable s f) = true ↔ _
    rw [List.any_eq_true]
    constructor
    · rintro ⟨e, he, hr⟩
      unfold repairable at hr
      rcases Bool.and_eq_true _ _ |>.mp hr with ⟨h1, h2⟩
      rw [Bool.not_eq_true'] at h2
      exact ⟨e, he, h1, h2⟩
    · rintro ⟨e, he, h1, h2⟩
      refine ⟨e, he, ?_⟩
      unfold repairable
      rw [h1, h2]
      rfl
  · intro e h1 h2
    unfold repairStep repairable
    rw [h1, h2]
    rfl
  · intro e h1
    unfold repairStep repairable
    rw [h1]
    rfl
  · intro e h2
    unfold repairStep repairable
    rw [h2]
    simp

/-- Closed witness for C5 on the repair scenario: the broken x→y edge
matches the recreated `y` through its retained via and is repaired, so the
operation reports true. -/
theorem C5_update_broken_references_spec_witness :
    (update_fields_with_broken_references fieldY2 repairState).1 = true ∧
    matches_broken_reference repairState.fields fieldY2
      ⟨100, 10, none, some 11, some "y"⟩ = true ∧
    repairStep repairState fieldY2 ⟨100, 10, none, some 11, some "y"⟩ =
      ⟨100, 10, some 13, some 11, none⟩ :=
  ⟨(C5_update_broken_references_spec fieldY2 repairState).1.mpr
     ⟨⟨100, 10, none, some 11, some "y"⟩, by decide, by decide, by decide⟩,
   by decide,
   (C5_update_broken_references_spec fieldY2 repairState).2.2.2.1
     ⟨100, 10, none, some 11, some "y"⟩ (by decide) (by decide)⟩

/-- C10: a broken edge whose via is null can only be matched through the
dependant-table branch of the repair queryset — the via branch evaluates
false on it — so it is repairable exactly when the new field's table is the
dependant's table (and the name matches and no cycle arises); conversely
the via branch only ever fires on an edge still carrying a resolved,
link-row via pointing at the new field's table. -/
theorem C10_repair_scope_via_null (s : GraphState) (f : Field)
    (e : FieldDependency) :
    (e.via = none →
      via_matches s.fields f e = false ∧
      matches_broken_reference s.fields f e = dependant_matches s.fields f e ∧
      repairable s f e = (dependant_matches s.fields f e &&
        !will_cause_circular_dep s.edges e.dependant f.id)) ∧
    (via_matches s.fields f e = true →
      ∃ vid v, e.via = some vid ∧ findField s.fields vid = some v ∧
        v.isLinkRow = true ∧ v.link_row_table = f.table) := by
  constructor
  · intro h
    have hvm : via_matches s.fields f e = false := by
      unfold via_matches
      rw [h]
      rfl
    refine ⟨hvm, ?_, ?_⟩
    · unfold matches_broken_reference
      rw [hvm, Bool.or_false]
    · unfold repairable matches_broken_reference
      rw [hvm, Bool.or_false]
  · intro h
    unfold via_matches at h
    rcases Bool.and_eq_true _ _ |>.mp h with ⟨h1, -⟩
    cases hv : e.via with
    | none =>
      rw [hv] at h1
      simp at h1
    | some vid =>
      rw [hv] at h1
      dsimp only [] at h1
      cases hf : findField s.fields vid with
      | none =>
        rw [hf] at h1
        simp at h1
      | some v =>
        rw [hf] at h1
        dsimp only [] at h1
        rcases Bool.and_eq_true _ _ |>.mp h1 with ⟨hl, ht⟩
        exact ⟨vid, v, rfl, hf, hl, of_decide_eq_true ht⟩

/-- Closed witness for C10: a via-null broken edge in the repair scenario
is in scope only through its dependant's table. -/
theorem C10_repair_scope_via_null_witness :
    ((⟨7, 10, none, none, some "y"⟩ : FieldDependency).via = none) ∧
    (via_matches repairState.fields fieldY2 ⟨7, 10, none, none, some "y"⟩ =
        false ∧
      matches_broken_reference repairState.fields fieldY2
          ⟨7, 10, none, none, some "y"⟩ =
        dependant_matches repairState.fields fieldY2
          ⟨7, 10, none, none, some "y"⟩ ∧
      repairable repairState fieldY2 ⟨7, 10, none, none, some "y"⟩ =
        (dependant_matches repairState.fields fieldY2
            ⟨7, 10, none, none, some "y"⟩ &&
          !will_cause_circular_dep repairState.edges 10 fieldY2.id)) :=
  ⟨rfl,
   (C10_repair_scope_via_null repairState fieldY2
     ⟨7, 10, none, none, some "y"⟩).1 rfl⟩

/-- C7: breaking a field `y` that is the dependency (but not the via) of a
via-edge rewrites only that edge's dependency and broken-name columns — the
via stays set to `l` and the id/dependant are untouched by the record
update — edges not touching `y` in any column are left completely
unchanged, and a later repair by a field `y2` carrying `y`'s name in the
via's linked table restores the dependency while the retained via is
preserved. -/
theorem C7_break_then_repair_preserves_via
    (y y2 l : Field) (s : GraphState) (e : FieldDependency)
    (he : e ∈ s.edges)
    (hdept : ¬ e.dependant = y.id)
    (hdep : e.dependency = some y.id)
    (hvia : e.via = some l.id)
    (hly : ¬ l.id = y.id)
    (hfind : findField s.fields l.id = some l)
    (hlink : l.isLinkRow = true)
    (hy2l : ¬ y2.id = l.id)
    (hname : y2.name = y.name)
    (htable : y2.table = l.link_row_table)
    (hcirc : will_cause_circular_dep (break_dependencies_for_field y s.edges)
      e.dependant y2.id = false) :
    breakEdge y e =
      { e with dependency := none,
               broken_reference_field_name := some y.name } ∧
    (breakEdge y e).via = some l.id ∧
    (∀ u ∈ s.edges, ¬ u.dependency = some y.id → ¬ u.via = some y.id →
      breakEdge y u = u) ∧
    { e with dependency := some y2.id, broken_reference_field_name := none } ∈
      (update_fields_with_broken_references y2
        ⟨y2 :: s.fields, break_dependencies_for_field y s.edges,
         s.nextId⟩).2.edges := by
  have h1 : breakEdge y e =
      { e with dependency := none,
               broken_reference_field_name := some y.name } := by
    have hneg : ¬ (y.isLinkRow = true ∧ e.via = some y.id) := by
      rintro ⟨-, hv⟩
      rw [hvia] at hv
      exact hly (Option.some.inj hv)
    unfold breakEdge
    dsimp only []
    rw [if_pos hdep]
    dsimp only []
    rw [if_neg hneg]
  have h2 : (breakEdge y e).via = some l.id := by
    rw [h1]
    exact hvia
  refine ⟨h1, h2, fun u _ hu1 hu2 => breakEdge_frame y u hu1 hu2, ?_⟩
  have hmem : breakEdge y e ∈ break_dependencies_for_field y s.edges :=
    mem_break_dependencies he hdept
  have hvm : via_matches (y2 :: s.fields) y2 (breakEdge y e) = true := by
    unfold via_matches
    rw [h2]
    dsimp only []
    rw [findField_cons_ne y2 s.fields l.id hy2l, hfind]
    dsimp only []
    rw [hlink, htable, hname, h1]
    simp
  have hrep : repairable
      ⟨y2 :: s.fields, break_dependencies_for_field y s.edges, s.nextId⟩ y2
      (breakEdge y e) = true := by
    unfold repairable matches_broken_reference
    dsimp only []
    rw [hvm, Bool.or_true, breakEdge_dependant, hcirc]
    rfl
  apply List.mem_map.mpr
  refine ⟨breakEdge y e, hmem, ?_⟩
  unfold repairStep
  rw [hrep]
  rw [if_pos rfl]
  unfold repairEdge
  rw [h1]

/-- Closed witness for C7 on the lookup scenario: delete `y`, recreate it
as `fieldY2`, and the x→y edge is repaired with its via to `l` intact. -/
theorem C7_break_then_repair_preserves_via_witness :
    edgeXY ∈ breakState.edges ∧
    ¬ edgeXY.dependant = fieldY.id ∧
    edgeXY.dependency = some fieldY.id ∧
    edgeXY.via = some linkL.id ∧
    ¬ linkL.id = fieldY.id ∧
    findField breakState.fields linkL.id = some linkL ∧
    linkL.isLinkRow = true ∧
    ¬ fieldY2.id = linkL.id ∧
    fieldY2.name = fieldY.name ∧
    fieldY2.table = linkL.link_row_table ∧
    will_cause_circular_dep
      (break_dependencies_for_field fieldY breakState.edges)
      edgeXY.dependant fieldY2.id = false ∧
    { edgeXY with dependency := some fieldY2.id,
                  broken_reference_field_name := none } ∈
      (update_fields_with_broken_references fieldY2
        ⟨fieldY2 :: breakState.fields,
         break_dependencies_for_field fieldY breakState.edges,
         breakState.nextId⟩).2.edges :=
  ⟨by decide, by decide, by decide, by decide, by decide, by decide,
   by decide, by decide, by decide, by decide, by decide,
   (C7_break_then_repair_preserves_via fieldY fieldY2 linkL breakState edgeXY
     (by decide) (by decide) (by decide) (by decide) (by decide) (by decide)
     (by decide) (by decide) (by decide) (by decide) (by decide)).2.2.2⟩

/-- C3 counterexample: rebuilding the link-row field `link` (table 1 →
table 2 with primary field `primary`) produces one resolved edge to the
primary field whose `via` is the link-row field itself — not null as the
claim states. -/
theorem C3_link_row_via_counterexample :
    rebuild_field_dependencies linkField [.viaPair "link" "primary"]
      linkState = .ok linkState' ∧
    currentDeps linkState' linkField.id = [linkEdge] ∧
    ¬ linkEdge.via = none :=
  ⟨by rfl, by decide, by decide⟩

/-- C3 (amended): for a link-row field L in table T1 linking to table T2
whose primary field is P, rebuilding L's dependencies (descriptor
`(L.name, P.name)` from the link-row field type) produces exactly one
resolved edge from L to P with via equal to L itself, and L has no
dependants. -/
theorem C3_rebuild_link_row_amended (L P : Field) (s : GraphState)
    (hlink : L.isLinkRow = true)
    (hlookL : lookup_by_name s.fields L.table L.name = some L)
    (hlookP : lookup_by_name s.fields L.link_row_table P.name = some P)
    (hempty : currentDeps s L.id = [])
    (hnodep : ∀ e ∈ s.edges, ¬ e.dependency = some L.id)
    (hPL : ¬ P.id = L.id)
    (hcirc : will_cause_circular_dep s.edges L.id P.id = false) :
    rebuild_field_dependencies L [.viaPair L.name P.name] s =
      .ok { s with
            edges := s.edges ++ [⟨s.nextId, L.id, some P.id, some L.id, none⟩],
            nextId := s.nextId + 1 } ∧
    currentDeps
      { s with
        edges := s.edges ++ [⟨s.nextId, L.id, some P.id, some L.id, none⟩],
        nextId := s.nextId + 1 } L.id =
      [⟨s.nextId, L.id, some P.id, some L.id, none⟩] ∧
    (∀ e ∈ s.edges ++ [⟨s.nextId, L.id, some P.id, some L.id, none⟩],
      ¬ e.dependency = some L.id) := by
  have hcd : construct_dependency L (.viaPair L.name P.name) s.fields =
      .ok [⟨0, L.id, some P.id, some L.id, none⟩] := by
    simp only [construct_dependency, hlookL, hlookP, hlink]
    simp
  have hca : construct_dependencies L s.fields [.viaPair L.name P.name] =
      .ok [⟨0, L.id, some P.id, some L.id, none⟩] := by
    simp only [construct_dependencies, hcd, List.append_nil]
  refine ⟨?_, ?_, ?_⟩
  · unfold rebuild_field_dependencies
    rw [hca]
    dsimp only []
    rw [hempty]
    simp [new_dependencies_to_create, delete_ids, buildDict, upsert, hasKey,
      assignIds, causes_cycle, hcirc]
  · unfold currentDeps
    dsimp only []
    rw [List.filter_append]
    have h1 : s.edges.filter (fun e => decide (e.dependant = L.id)) = [] :=
      hempty
    rw [h1]
    simp
  · intro e hee
    rcases List.mem_append.mp hee with hee | hee
    · exact hnodep e hee
    · rw [List.mem_singleton] at hee
      subst hee
      intro hcon
      exact hPL (Option.some.inj hcon)

/-- Closed witness for the amended C3 on the concrete two-table fixture. -/
theorem C3_rebuild_link_row_amended_witness :
    linkField.isLinkRow = true ∧
    lookup_by_name linkState.fields linkField.table linkField.name =
      some linkField ∧
    lookup_by_name linkState.fields linkField.link_row_table primaryT2.name =
      some primaryT2 ∧
    currentDeps linkState linkField.id = [] ∧
    (∀ e ∈ linkState.edges, ¬ e.dependency = some linkField.id) ∧
    ¬ primaryT2.id = linkField.id ∧
    will_cause_circular_dep linkState.edges linkField.id primaryT2.id =
      false ∧
    rebuild_field_dependencies linkField
      [.viaPair linkField.name primaryT2.name] linkState =
      .ok { linkState with
            edges := linkState.edges ++
              [⟨linkState.nextId, linkField.id, some primaryT2.id,
                some linkField.id, none⟩],
            nextId := linkState.nextId + 1 } :=
  ⟨by decide, by decide, by decide, by decide, by decide, by decide,
   by decide,
   (C3_rebuild_link_row_amended linkField primaryT2 linkState
     (by decide) (by decide) (by decide) (by decide) (by decide) (by decide)
     (by decide)).1⟩

end Baserow
